import Mathlib

/-!
Shallow embedding of the credit-card portfolio optimization engine
(`creditvaluation.py`): reward-rate resolution with category aliasing,
rebate overlap resolution, portfolio evaluation, and the exhaustive
search with prefiltering.  Currency amounts and multipliers are modelled
as rationals; Python dicts are modelled as insertion-ordered association
lists (Python dicts are insertion-ordered and duplicate-free); the
`KeyError` a dict subscript can raise is modelled with `Except`.
Python's stable `sort` is modelled by a stable insertion sort on the
same comparator (any stable sort with a fixed total comparator computes
the same list, so this is extensionally the source's sort).
-/

namespace CreditValuation

/-- Insertion-ordered association list standing for a Python dict. -/
abbrev Dict (κ α : Type) := List (κ × α)

/-- Python `d[k]` / `k in d` lookup: first (unique) matching key. -/
def dlookup {κ α : Type} [DecidableEq κ] : Dict κ α → κ → Option α
  | [], _ => none
  | p :: ps, k => if p.1 = k then some p.2 else dlookup ps k

/-- Python `d.get(k, dflt)`. -/
def dgetD {κ α : Type} [DecidableEq κ] (m : Dict κ α) (k : κ) (d : α) : α :=
  (dlookup m k).getD d

/-- Python `k in d`. -/
def dcontains {κ α : Type} [DecidableEq κ] (m : Dict κ α) (k : κ) : Bool :=
  (dlookup m k).isSome

/-- Python `d[k] = v`: overwrite in place, or append a fresh key at the end. -/
def dset {κ α : Type} [DecidableEq κ] : Dict κ α → κ → α → Dict κ α
  | [], k, v => [(k, v)]
  | p :: ps, k, v => if p.1 = k then (k, v) :: ps else p :: dset ps k v

/-- Python `d.setdefault(k, v)` (the dict after the call). -/
def dsetdefault {κ α : Type} [DecidableEq κ] : Dict κ α → κ → α → Dict κ α
  | [], k, v => [(k, v)]
  | p :: ps, k, v => if p.1 = k then p :: ps else p :: dsetdefault ps k v

/-- Python `enumerate` starting from index `i`. -/
def pyEnumFrom {α : Type} (i : Nat) : List α → List (Nat × α)
  | [] => []
  | x :: xs => (i, x) :: pyEnumFrom (i + 1) xs

/-- Python `enumerate(l)`. -/
def pyEnum {α : Type} (l : List α) : List (Nat × α) := pyEnumFrom 0 l

/-- A rebate dict: `{"type", "category", "amount", "description"}`.  The
`category` field is only ever read when `type == "category"` (flat rebates
carry a dummy value there, mirroring the absent key of the source's dicts);
`description` is read with a `.get` default, hence optional. -/
structure Rebate where
  type : String
  category : String
  amount : ℚ
  description : Option String
deriving DecidableEq, Repr

/-- A card dict.  `annual_fee` and `point_value` are read in the source with
`.get` defaults (0 and 0.01), hence optional. -/
structure Card where
  name : String
  annual_fee : Option ℚ
  point_value : Option ℚ
  rewards : Dict String ℚ
  rebates : List Rebate
deriving DecidableEq, Repr

/-- One structured rebate ledger entry of `per_card_details`. -/
structure LedgerEntry where
  idx : Nat
  description : String
  is_category : Bool
  used : ℚ
  amount : ℚ
  applied : Bool
deriving DecidableEq, Repr

/-- `per_card_details`: card name to list of ledger entries. -/
abbrev Ledger := Dict String (List LedgerEntry)

/-- `rebate_usage`: card name to (rebate index to usage flag). -/
abbrev Usage := Dict String (Dict Nat Bool)

/-- The canonical spending categories (module-level `categories`). -/
def categories : List String :=
  ["groceries", "dining", "flights_portal", "hotel", "gas", "online_shopping", "other"]

/-- The alias table of `get_reward_rate`. -/
def category_map : Dict String (List String) :=
  [("groceries", ["groceries", "supermarkets", "online_grocery"]),
   ("dining", ["dining", "restaurants"]),
   ("flights_portal", ["flights_portal", "flights", "travel_portal", "other_travel"]),
   ("hotel", ["hotel", "hotels_portal", "lodging", "travel_portal"]),
   ("gas", ["gas", "transport", "transit"]),
   ("online_shopping", ["online_shopping", "top", "other"]),
   ("other", ["other"])]

/-- The `for key in keys_to_try` loop of `get_reward_rate`: first key present
in the rewards mapping wins; fall through to the baseline multiplier 1. -/
def tryKeys : List String → Dict String ℚ → ℚ
  | [], _ => 1
  | k :: ks, rw =>
    match dlookup rw k with
    | some v => v
    | none => tryKeys ks rw

/-- `get_reward_rate(card, category)`. -/
def get_reward_rate (card : Card) (category : String) : ℚ :=
  tryKeys (dgetD category_map category ["other"] ++ ["all"]) card.rewards

/-- One element of the `category_rebates` list of `apply_rebates`:
the tuple `(rebate["category"], rebate["amount"], card, idx, rebate)`. -/
structure CatItem where
  cat : String
  amount : ℚ
  card : Card
  idx : Nat
  rebate : Rebate
deriving DecidableEq, Repr

/-- The gathering loop of `apply_rebates`: every category rebate of every
card, tagged with its owning card and rebate index, in encounter order. -/
def gatherCategoryRebates (cards : List Card) : List CatItem :=
  cards.flatMap (fun card =>
    (pyEnum card.rebates).filterMap (fun p =>
      if p.2.type = "category" then some ⟨p.2.category, p.2.amount, card, p.1, p.2⟩
      else none))

/-- Stable insertion into a list kept descending by `key`; an incoming
element goes before the first strictly smaller key, after ties. -/
def insertDescBy {α : Type} (key : α → ℚ) (x : α) : List α → List α
  | [] => [x]
  | y :: ys => if key y ≤ key x then x :: y :: ys else y :: insertDescBy key x ys

/-- Stable sort, descending by `key`: the semantics of Python's stable
`list.sort(key=lambda x: -key(x))`. -/
def sortDescBy {α : Type} (key : α → ℚ) : List α → List α
  | [] => []
  | x :: xs => insertDescBy key x (sortDescBy key xs)

/-- `category_rebates.sort(key=lambda x: -x[1])`: largest amount first,
ties kept in encounter order. -/
def sortedCategoryRebates (cards : List Card) : List CatItem :=
  sortDescBy CatItem.amount (gatherCategoryRebates cards)

/-- Mutable state of the category-rebate loop of `apply_rebates`. -/
structure RebState where
  remaining : Dict String ℚ
  total : ℚ
  details : Ledger
deriving DecidableEq, Repr

/-- `per_card_details.setdefault(name, []).append(e)`. -/
def dappend : Ledger → String → LedgerEntry → Ledger
  | [], k, e => [(k, [e])]
  | p :: ps, k, e => if p.1 = k then (p.1, p.2 ++ [e]) :: ps else p :: dappend ps k e

/-- One iteration of the category-rebate loop: `used = min(spent, amount)`,
accumulate, decrement the shared remaining spend.  The final
`remaining_spend[cat] -= used` subscript raises `KeyError` when the
category is not a spending key. -/
def applyCatItem (st : RebState) (it : CatItem) : Except String RebState :=
  let spent := dgetD st.remaining it.cat 0
  let used := min spent it.amount
  let applied := decide (used > 0)
  match dlookup st.remaining it.cat with
  | none => .error ("KeyError: " ++ it.cat)
  | some r =>
    .ok { remaining := dset st.remaining it.cat (r - used),
          total := st.total + used,
          details := dappend st.details it.card.name
            ⟨it.idx, it.rebate.description.getD "Category Rebate", true, used, it.amount, applied⟩ }

/-- One iteration of the flat-rebate inner loop: look the usage flag up in
the usage state (default `True`), add the full amount when the flag is set,
and record a ledger entry. -/
def flatStep (usage : Usage) (card : Card) (acc : ℚ × Ledger) (p : Nat × Rebate) :
    ℚ × Ledger :=
  if p.2.type = "flat" then
    ((if dgetD (dgetD usage card.name []) p.1 true then acc.1 + p.2.amount else acc.1),
     dappend acc.2 card.name
       ⟨p.1, (p.2.description).getD "Flat Rebate", false,
        (if dgetD (dgetD usage card.name []) p.1 true then p.2.amount else 0), p.2.amount,
        dgetD (dgetD usage card.name []) p.1 true⟩)
  else acc

/-- The flat-rebate loop body for one card: `details = setdefault(name, [])`,
then the inner loop over the card's enumerated rebates. -/
def applyFlatForCard (usage : Usage) (st : ℚ × Ledger) (card : Card) : ℚ × Ledger :=
  (pyEnum card.rebates).foldl (flatStep usage card) (st.1, dsetdefault st.2 card.name [])

/-- The `for cat, amount, card, idx, rebate in category_rebates` loop:
thread the mutable state through the sorted items, propagating a raised
`KeyError`. -/
def runCatItems : List CatItem → RebState → Except String RebState
  | [], st => .ok st
  | it :: its, st =>
    match applyCatItem st it with
    | .error e => .error e
    | .ok st' => runCatItems its st'

/-- `apply_rebates(cards, annual_spending, rebate_usage)`: the category
phase (largest-first greedy over the shared remaining spend) followed by the
flat phase; returns `(total_rebate, per_card_details)`. -/
def apply_rebates (cards : List Card) (annual_spending : Dict String ℚ)
    (rebate_usage : Usage) : Except String (ℚ × Ledger) :=
  match runCatItems (sortedCategoryRebates cards) ⟨annual_spending, 0, []⟩ with
  | .error e => .error e
  | .ok st => .ok (cards.foldl (applyFlatForCard rebate_usage) (st.total, st.details))

/-- `rate * spend * card.get("point_value", 0.01)`: the value one card earns
on one category at the given spend. -/
def cardCatValue (card : Card) (cat : String) (spend : ℚ) : ℚ :=
  get_reward_rate card cat * spend * (card.point_value).getD (1 / 100)

/-- The scanning loop of `evaluate_portfolio` for one category, from an
arbitrary running `(best_val, best_card)` accumulator. -/
def bestFold (cat : String) (spend : ℚ) (acc : ℚ × Option String) (cards : List Card) :
    ℚ × Option String :=
  cards.foldl
    (fun a card =>
      let val := cardCatValue card cat spend
      if val > a.1 then (val, some card.name) else a)
    acc

/-- The inner loop of `evaluate_portfolio` for one category: scan the cards,
keep the strictly improving `(best_val, best_card)`, starting from
`(0.0, None)`. -/
def bestForCategory (cards : List Card) (cat : String) (spend : ℚ) : ℚ × Option String :=
  bestFold cat spend (0, none) cards

/-- The rewards loop of `evaluate_portfolio`: iterate the spending profile's
items, accumulate `total_rewards` and build `assignment`. -/
def rewardsAndAssignment (cards : List Card) (annual_spending : Dict String ℚ) :
    ℚ × Dict String (Option String × ℚ) :=
  annual_spending.foldl
    (fun acc p =>
      let b := bestForCategory cards p.1 p.2
      (acc.1 + b.1, dset acc.2 p.1 (b.2, b.1)))
    (0, [])

/-- The tuple `evaluate_portfolio` returns:
`(total_net, assignment, per_card_details, total_rewards, fees)`. -/
structure EvalResult where
  total_net : ℚ
  assignment : Dict String (Option String × ℚ)
  per_card_details : Ledger
  total_rewards : ℚ
  fees : ℚ
deriving DecidableEq, Repr

/-- `evaluate_portfolio(cards, annual_spending, rebate_usage)`. -/
def evaluate_portfolio (cards : List Card) (annual_spending : Dict String ℚ)
    (rebate_usage : Usage) : Except String EvalResult :=
  match apply_rebates cards annual_spending rebate_usage with
  | .error e => .error e
  | .ok rb =>
    let ra := rewardsAndAssignment cards annual_spending
    let fees := (cards.map (fun c => (c.annual_fee).getD 0)).sum
    .ok ⟨ra.1 + rb.1 - fees, ra.2, rb.2, ra.1, fees⟩

/-- `_score_card_approx(card, annual_spending, include_rebates, ...)`:
cheap single-card estimate used only for prefiltering.  (`include_offers`
is accepted and ignored, as in the source.) -/
def score_card_approx (card : Card) (annual_spending : Dict String ℚ)
    (include_rebates : Bool) (_include_offers : Bool) : ℚ :=
  let point_value := (card.point_value).getD (1 / 100)
  let base := annual_spending.foldl
    (fun acc p =>
      let rate :=
        match dlookup card.rewards p.1 with
        | some v => v
        | none =>
          match dlookup card.rewards p.1 with
          | some v => v
          | none =>
            match dlookup card.rewards "all" with
            | some v => v
            | none => 1
      acc + rate * p.2 * point_value)
    0
  let withReb :=
    if include_rebates then
      card.rebates.foldl (fun acc r => if r.type = "flat" then acc + r.amount else acc) base
    else base
  withReb - (card.annual_fee).getD 0

/-- The prefiltering step of `find_best_portfolio`: when the catalog exceeds
`max_cards`, keep the top `max_cards` by approximate score (stable sort,
descending); otherwise the full catalog. -/
def cardsToConsider (credit_cards : List Card) (annual_spending : Dict String ℚ)
    (max_cards : Option Nat) (include_rebates : Bool) (include_offers : Bool) : List Card :=
  match max_cards with
  | none => credit_cards
  | some m =>
    if credit_cards.length > m then
      ((sortDescBy Prod.snd
        (credit_cards.map (fun c => (c, score_card_approx c annual_spending include_rebates include_offers)))).take m).map Prod.fst
    else credit_cards

/-- `itertools.combinations(l, r)`: all length-`r` sublists in the order
itertools emits them (lexicographic by position). -/
def combinations {α : Type} : Nat → List α → List (List α)
  | 0, _ => [[]]
  | _ + 1, [] => []
  | n + 1, x :: xs => ((combinations n xs).map (x :: ·)) ++ combinations (n + 1) xs

/-- The enumeration order of the search: `for r in range(1, max_r+1)`, then
`itertools.combinations(cards, r)`. -/
def enumSubsets (cards : List Card) (max_r : Int) : List (List Card) :=
  (List.range' 1 max_r.toNat).flatMap (fun r => combinations r cards)

/-- The best-so-far tuple the search returns (elapsed wall-clock time, an
informational value, is not modelled). -/
structure SearchResult where
  best_portfolio : Option (List Card)
  best_val : ℚ
  best_assignment : Dict String (Option String × ℚ)
  best_details : Ledger
  best_rewards : ℚ
  best_fees : ℚ
deriving DecidableEq, Repr

/-- The initial best-so-far: `(-1e12, None, {}, {})` with rewards/fees 0. -/
def searchInit : SearchResult := ⟨none, -(10 ^ 12 : ℚ), [], [], 0, 0⟩

/-- One iteration of the search loop: evaluate the subset and replace the
incumbent only on strict improvement. -/
def searchStep (annual_spending : Dict String ℚ) (usage : Usage)
    (st : SearchResult) (subset : List Card) : Except String SearchResult :=
  match evaluate_portfolio subset annual_spending usage with
  | .error e => .error e
  | .ok r =>
    if r.total_net > st.best_val then
      .ok ⟨some subset, r.total_net, r.assignment, r.per_card_details, r.total_rewards, r.fees⟩
    else .ok st

/-- The `for subset in combinations(...)` loops: thread the best-so-far
through the enumerated subsets, propagating a raised error. -/
def runSearch (annual_spending : Dict String ℚ) (usage : Usage) :
    List (List Card) → SearchResult → Except String SearchResult
  | [], st => .ok st
  | s :: ss, st =>
    match searchStep annual_spending usage st s with
    | .error e => .error e
    | .ok st' => runSearch annual_spending usage ss st'

/-- `find_best_portfolio(credit_cards, annual_spending, rebate_usage,
max_cards, max_portfolio_size, include_rebates, include_offers)`:
prefilter, enumerate subsets of size 1..max_r, keep the strictly best.
When `include_rebates` is false the evaluator is handed an empty usage
state (the source's `rebate_usage if include_rebates else {}`). -/
def find_best_portfolio (credit_cards : List Card) (annual_spending : Dict String ℚ)
    (rebate_usage : Usage) (max_cards : Option Nat) (max_portfolio_size : Option Int)
    (include_rebates : Bool) (include_offers : Bool) : Except String SearchResult :=
  let cands := cardsToConsider credit_cards annual_spending max_cards include_rebates include_offers
  let max_r : Int :=
    match max_portfolio_size with
    | none => (cands.length : Int)
    | some m => min (cands.length : Int) m
  let usage : Usage := if include_rebates then rebate_usage else []
  runSearch annual_spending usage (enumSubsets cands max_r) searchInit

/-! Claim-side auxiliary definitions, used only to state properties. -/

/-- The category of the rebate a ledger entry `(name, idx)` points back to:
look the card up by name, then the rebate by index. -/
def rebateCategoryOf (cards : List Card) (name : String) (idx : Nat) : Option String :=
  (cards.find? (fun c => c.name == name)).bind
    (fun c => (c.rebates.get? idx).map Rebate.category)

/-- The `used` amount a single ledger entry contributes to a category:
its `used` field when it is a category-rebate entry for that category, 0
otherwise. -/
def entryUsedFor (cards : List Card) (cat : String) (name : String) (e : LedgerEntry) : ℚ :=
  if e.is_category = true ∧ rebateCategoryOf cards name e.idx = some cat then e.used else 0

/-- Sum of `used` over all category-rebate ledger entries for one category. -/
def usedSumForCategory (d : Ledger) (cards : List Card) (cat : String) : ℚ :=
  (d.map (fun p => ((p.2.map (entryUsedFor cards cat p.1)).sum))).sum

/-- An item of the gathered category-rebate list is well-formed for its
portfolio: non-negative amount, and the (card name, index) pair written to
the ledger resolves back to the item's category. -/
def goodItem (cards : List Card) (it : CatItem) : Prop :=
  0 ≤ it.amount ∧ rebateCategoryOf cards it.card.name it.idx = some it.cat

/-- The net value the search loop compares: `evaluate_portfolio`'s
`total_net`, by subset. -/
def netOf (sp : Dict String ℚ) (usage : Usage) (s : List Card) : Except String ℚ :=
  Except.map EvalResult.total_net (evaluate_portfolio s sp usage)

/-- Search-loop invariant: the incumbent is the first enumerated subset
attaining the running maximum (strict-improvement replacement). -/
def searchInv (sp : Dict String ℚ) (usage : Usage) (processed : List (List Card))
    (st : SearchResult) : Prop :=
  (st.best_portfolio = none → st.best_val = -(10 ^ 12 : ℚ) ∧
    ∀ q ∈ processed, ∃ v, netOf sp usage q = .ok v ∧ v ≤ -(10 ^ 12 : ℚ)) ∧
  (∀ p, st.best_portfolio = some p → ∃ L1 L2, processed = L1 ++ p :: L2 ∧
    netOf sp usage p = .ok st.best_val ∧
    (∀ q ∈ L1, ∃ v, netOf sp usage q = .ok v ∧ v < st.best_val) ∧
    (∀ q ∈ L2, ∃ v, netOf sp usage q = .ok v ∧ v ≤ st.best_val))

/-- Invariant of the category-rebate loop for the non-double-counting
claim: the remaining-spend dict keeps exactly the profile's keys, and for
every profile entry the ledger's used total plus the non-negative remaining
spend equals the entry's spend. -/
def c1Inv (cards : List Card) (sp0 : Dict String ℚ) (st : RebState) : Prop :=
  st.remaining.map Prod.fst = sp0.map Prod.fst ∧
  ∀ p ∈ sp0, ∃ r, dlookup st.remaining p.1 = some r ∧ 0 ≤ r ∧
    usedSumForCategory st.details cards p.1 + r = p.2

/-! Concrete fixtures used by scenario clauses, counterexamples and
witnesses. -/

/-- A card with a $300 dining category rebate. -/
def c3cardA : Card := ⟨"A", none, none, [], [⟨"category", "dining", 300, some "Dining Credit A"⟩]⟩

/-- A second card with the same $300 dining category rebate. -/
def c3cardB : Card := ⟨"B", none, none, [], [⟨"category", "dining", 300, some "Dining Credit B"⟩]⟩

/-- The ledger `apply_rebates` produces for the two-$300-dining-rebates,
$250-dining-spend scenario. -/
def c3ledger : Ledger :=
  [("A", [⟨0, "Dining Credit A", true, 250, 300, true⟩]),
   ("B", [⟨0, "Dining Credit B", true, 0, 300, false⟩])]

/-- A card whose only rebate is a category rebate for `parking`, which is
not a spending key. -/
def c8card : Card := ⟨"P", none, none, [], [⟨"category", "parking", 50, none⟩]⟩

/-- A card with a single $100 flat rebate. -/
def c6card : Card := ⟨"F", none, none, [], [⟨"flat", "", 100, some "Annual Credit"⟩]⟩

/-- A card earning 3x on dining, $95 fee, 1¢ points. -/
def c2card : Card := ⟨"A", some 95, some (1 / 100), [("dining", 3)], []⟩

/-- A no-fee card earning 1x on everything. -/
def c5cardB : Card := ⟨"B", none, some (1 / 100), [("all", 1)], []⟩

/-- A card with a 2x `other` multiplier and no rebates. -/
def c9card : Card := ⟨"A", none, none, [("other", 2)], []⟩

/-! Association-list (Python dict) lemmas. -/

theorem dlookup_mem {κ α : Type} [DecidableEq κ] {m : Dict κ α} {k : κ} {v : α}
    (h : dlookup m k = some v) : (k, v) ∈ m := by
  induction m with
  | nil => simp [dlookup] at h
  | cons p ps ih =>
    obtain ⟨a, b⟩ := p
    by_cases hk : a = k
    · subst hk
      simp [dlookup] at h
      subst h
      exact List.mem_cons_self _ _
    · simp [dlookup, hk] at h
      exact List.mem_cons_of_mem _ (ih h)

theorem dlookup_eq_none_iff {κ α : Type} [DecidableEq κ] (m : Dict κ α) (k : κ) :
    dlookup m k = none ↔ k ∉ m.map Prod.fst := by
  induction m with
  | nil => simp [dlookup]
  | cons p ps ih =>
    obtain ⟨a, b⟩ := p
    by_cases hk : a = k
    · subst hk
      simp [dlookup]
    · simp [dlookup, hk, ih, Ne.symm hk]

theorem dlookup_isSome_mem {κ α : Type} [DecidableEq κ] {m : Dict κ α} {k : κ} {v : α}
    (h : dlookup m k = some v) : k ∈ m.map Prod.fst := by
  by_contra hk
  rw [← dlookup_eq_none_iff] at hk
  rw [h] at hk
  cases hk

theorem dlookup_of_mem_nodup {κ α : Type} [DecidableEq κ] {m : Dict κ α} {k : κ} {v : α}
    (hn : (m.map Prod.fst).Nodup) (h : (k, v) ∈ m) : dlookup m k = some v := by
  induction m with
  | nil => cases h
  | cons p ps ih =>
    obtain ⟨a, b⟩ := p
    have hn' : a ∉ ps.map Prod.fst ∧ (ps.map Prod.fst).Nodup := by
      rw [List.map_cons, List.nodup_cons] at hn
      exact hn
    rcases List.mem_cons.mp h with h1 | h1
    · injection h1 with h1a h1b
      subst h1a
      subst h1b
      simp [dlookup]
    · have hk : a ≠ k := by
        intro he
        apply hn'.1
        rw [he]
        exact List.mem_map.mpr ⟨(k, v), h1, rfl⟩
      simp [dlookup, hk]
      exact ih hn'.2 h1

theorem dlookup_dset_self {κ α : Type} [DecidableEq κ] (m : Dict κ α) (k : κ) (v : α) :
    dlookup (dset m k v) k = some v := by
  induction m with
  | nil => simp [dset, dlookup]
  | cons p ps ih =>
    obtain ⟨a, b⟩ := p
    by_cases hk : a = k
    · simp [dset, hk, dlookup]
    · simp [dset, hk, dlookup, ih]

theorem dlookup_dset_ne {κ α : Type} [DecidableEq κ] (m : Dict κ α) (k : κ) (v : α)
    {k' : κ} (h : k' ≠ k) : dlookup (dset m k v) k' = dlookup m k' := by
  induction m with
  | nil => simp [dset, dlookup, Ne.symm h]
  | cons p ps ih =>
    obtain ⟨a, b⟩ := p
    by_cases hk : a = k
    · subst hk
      simp [dset, dlookup, Ne.symm h]
    · by_cases hk' : a = k' <;> simp [dset, hk, dlookup, hk', h, ih]

theorem dset_keys {κ α : Type} [DecidableEq κ] {m : Dict κ α} {k : κ} (v : α)
    (h : k ∈ m.map Prod.fst) : (dset m k v).map Prod.fst = m.map Prod.fst := by
  induction m with
  | nil => rw [List.map_nil] at h; cases h
  | cons p ps ih =>
    obtain ⟨a, b⟩ := p
    by_cases hk : a = k
    · simp [dset, hk]
    · rw [List.map_cons, List.mem_cons] at h
      rcases h with h | h
      · exact absurd h.symm hk
      · simp [dset, hk, ih h]

theorem dset_not_contains {κ α : Type} [DecidableEq κ] {m : Dict κ α} {k : κ} (v : α)
    (h : k ∉ m.map Prod.fst) : dset m k v = m ++ [(k, v)] := by
  induction m with
  | nil => simp [dset]
  | cons p ps ih =>
    obtain ⟨a, b⟩ := p
    rw [List.map_cons, List.mem_cons] at h
    push_neg at h
    simp [dset, Ne.symm h.1, ih h.2]

theorem dlookup_append_ne {κ α : Type} [DecidableEq κ] (m : Dict κ α) (k : κ) (v : α)
    {c : κ} (h : c ≠ k) : dlookup (m ++ [(k, v)]) c = dlookup m c := by
  induction m with
  | nil => simp [dlookup, Ne.symm h]
  | cons p ps ih =>
    obtain ⟨a, b⟩ := p
    by_cases hc : a = c <;> simp [dlookup, hc, ih]

theorem dset_append_ne {κ α : Type} [DecidableEq κ] {m : Dict κ α} {c : κ} (w : α)
    (k : κ) (v : α) (h : c ∈ m.map Prod.fst) :
    dset (m ++ [(k, v)]) c w = dset m c w ++ [(k, v)] := by
  induction m with
  | nil => rw [List.map_nil] at h; cases h
  | cons p ps ih =>
    obtain ⟨a, b⟩ := p
    by_cases hc : a = c
    · simp [dset, hc]
    · rw [List.map_cons, List.mem_cons] at h
      rcases h with h | h
      · exact absurd h.symm hc
      · simp [dset, hc, ih h]

/-! Stable descending sort lemmas. -/

theorem insertDescBy_perm {α : Type} (key : α → ℚ) (x : α) (l : List α) :
    (insertDescBy key x l).Perm (x :: l) := by
  induction l with
  | nil => exact List.Perm.refl _
  | cons y ys ih =>
    by_cases h : key y ≤ key x
    · simp [insertDescBy, h]
    · simp only [insertDescBy, if_neg h]
      exact (ih.cons y).trans (List.Perm.swap x y ys)

theorem sortDescBy_perm {α : Type} (key : α → ℚ) (l : List α) :
    (sortDescBy key l).Perm l := by
  induction l with
  | nil => exact List.Perm.refl _
  | cons x xs ih =>
    exact (insertDescBy_perm key x (sortDescBy key xs)).trans (ih.cons x)

theorem mem_insertDescBy {α : Type} {key : α → ℚ} {x z : α} {l : List α}
    (h : z ∈ insertDescBy key x l) : z = x ∨ z ∈ l :=
  List.mem_cons.mp ((insertDescBy_perm key x l).mem_iff.mp h)

theorem pairwise_insertDescBy {α : Type} {key : α → ℚ} (x : α) {l : List α}
    (h : l.Pairwise (fun a b => key b ≤ key a)) :
    (insertDescBy key x l).Pairwise (fun a b => key b ≤ key a) := by
  induction l with
  | nil => simp [insertDescBy]
  | cons y ys ih =>
    rcases List.pairwise_cons.mp h with ⟨hy, hys⟩
    by_cases hle : key y ≤ key x
    · simp only [insertDescBy, if_pos hle]
      refine List.pairwise_cons.mpr ⟨?_, h⟩
      intro z hz
      rcases List.mem_cons.mp hz with hz | hz
      · rw [hz]; exact hle
      · exact le_trans (hy z hz) hle
    · simp only [insertDescBy, if_neg hle]
      refine List.pairwise_cons.mpr ⟨?_, ih hys⟩
      intro z hz
      rcases mem_insertDescBy hz with hz | hz
      · rw [hz]; exact le_of_not_le hle
      · exact hy z hz

theorem sortDescBy_pairwise {α : Type} (key : α → ℚ) (l : List α) :
    (sortDescBy key l).Pairwise (fun a b => key b ≤ key a) := by
  induction l with
  | nil => simp [sortDescBy]
  | cons x xs ih => exact pairwise_insertDescBy x ih

theorem filter_insertDescBy {α : Type} (key : α → ℚ) (x : α) (l : List α) (q : ℚ) :
    (insertDescBy key x l).filter (fun z => decide (key z = q))
      = (x :: l).filter (fun z => decide (key z = q)) := by
  induction l with
  | nil => simp [insertDescBy]
  | cons y ys ih =>
    by_cases hle : key y ≤ key x
    · simp [insertDescBy, hle]
    · simp only [insertDescBy, if_neg hle]
      by_cases hx : key x = q
      · have hy : ¬ key y = q := by
          intro hyq
          exact hle (le_of_eq (by rw [hyq, hx]))
        simp [List.filter_cons, hx, hy, ih]
      · by_cases hy : key y = q <;> simp [List.filter_cons, hx, hy, ih]

theorem filter_sortDescBy {α : Type} (key : α → ℚ) (l : List α) (q : ℚ) :
    (sortDescBy key l).filter (fun z => decide (key z = q))
      = l.filter (fun z => decide (key z = q)) := by
  induction l with
  | nil => rfl
  | cons x xs ih =>
    rw [sortDescBy, filter_insertDescBy, List.filter_cons, List.filter_cons, ih]

/-! Rate-resolver lemmas. -/

theorem tryKeys_eq_findSome (keys : List String) (rw : Dict String ℚ) :
    tryKeys keys rw = (keys.findSome? (fun k => dlookup rw k)).getD 1 := by
  induction keys with
  | nil => rfl
  | cons k ks ih =>
    rw [tryKeys, List.findSome?_cons]
    cases dlookup rw k <;> simp [ih]

theorem tryKeys_nonneg {rw : Dict String ℚ} (h : ∀ p ∈ rw, 0 ≤ p.2) (keys : List String) :
    0 ≤ tryKeys keys rw := by
  induction keys with
  | nil => exact zero_le_one
  | cons k ks ih =>
    rw [tryKeys]
    cases hl : dlookup rw k with
    | none => exact ih
    | some v => exact h (k, v) (dlookup_mem hl)

theorem get_reward_rate_nonneg {card : Card} (h : ∀ p ∈ card.rewards, 0 ≤ p.2)
    (cat : String) : 0 ≤ get_reward_rate card cat :=
  tryKeys_nonneg h _

theorem enumSubsets_nonpos (cards : List Card) {max_r : Int} (h : max_r ≤ 0) :
    enumSubsets cards max_r = [] := by
  rw [enumSubsets, Int.toNat_of_nonpos h]
  rfl

/-- C4: for every card and every canonical category, the rate resolver tries
the category's alias list in order followed by the universal fallback key
`all` and returns the first matching multiplier of the card's rewards
mapping; when no alias and not `all` is present it returns the baseline 1
(and, being a total function, it never raises for a missing category). -/
theorem c4_rate_resolver_alias_order (card : Card) (cat : String) (h : cat ∈ categories) :
    get_reward_rate card cat
      = ((dgetD category_map cat [] ++ ["all"]).findSome? (fun k => dlookup card.rewards k)).getD 1
    ∧ ((∀ k ∈ dgetD category_map cat [] ++ ["all"], dlookup card.rewards k = none) →
        get_reward_rate card cat = 1) := by
  have halias : dgetD category_map cat ["other"] = dgetD category_map cat [] := by
    simp only [categories, List.mem_cons, List.not_mem_nil, or_false] at h
    rcases h with rfl | rfl | rfl | rfl | rfl | rfl | rfl <;> rfl
  constructor
  · rw [get_reward_rate, halias, tryKeys_eq_findSome]
  · intro hnone
    rw [get_reward_rate, halias, tryKeys_eq_findSome, List.findSome?_eq_none_iff.mpr hnone]
    rfl

/-- C4 witness: on a concrete card earning 3x `restaurants` and 1x `all`,
the resolver maps `dining` to the `restaurants` multiplier. -/
theorem c4_rate_resolver_witness :
    get_reward_rate ⟨"W", none, none, [("restaurants", 3), ("all", 1)], []⟩ "dining"
      = ((dgetD category_map "dining" [] ++ ["all"]).findSome?
          (fun k => dlookup ([("restaurants", 3), ("all", 1)] : Dict String ℚ) k)).getD 1 :=
  (c4_rate_resolver_alias_order ⟨"W", none, none, [("restaurants", 3), ("all", 1)], []⟩
    "dining" (by simp [categories])).1

/-- C8 (code bug): a category rebate whose category is not one of the
spending profile's keys makes `apply_rebates` fail with a `KeyError` at
`remaining_spend[cat] -= used` instead of completing with a 0
contribution. -/
theorem c8_unmapped_category_keyerror :
    apply_rebates [c8card] [("dining", 100)] [] = .error "KeyError: parking" := by
  with_unfolding_all rfl

/-- C7 counterexample: an empty catalog does not make the search fail with
an error; it returns the sentinel result (portfolio `None`, best value
-1e12). -/
theorem c7_empty_catalog_sentinel :
    find_best_portfolio [] [("dining", 1200)] [] (some 16) (some 4) true true
      = .ok searchInit := by
  with_unfolding_all rfl

/-- C7 amended: with an empty catalog, or with `max_portfolio_size` zero or
negative, `find_best_portfolio` does not fail: it returns the sentinel
result (portfolio `None`, best value -1e12, empty breakdown). -/
theorem c7_sentinel_on_degenerate_config (catalog : List Card) (sp : Dict String ℚ)
    (usage : Usage) (mc : Option Nat) (mps : Option Int) (ir ofr : Bool)
    (h : catalog = [] ∨ ∃ m, mps = some m ∧ m ≤ 0) :
    find_best_portfolio catalog sp usage mc mps ir ofr = .ok searchInit := by
  rcases h with rfl | ⟨m, rfl, hm⟩
  · have hc : cardsToConsider [] sp mc ir ofr = [] := by
      cases mc <;> simp [cardsToConsider]
    simp only [find_best_portfolio, hc]
    cases mps with
    | none => rw [enumSubsets_nonpos _ (by simp)]; rfl
    | some m => rw [enumSubsets_nonpos _ (le_trans (min_le_left _ _) (by simp))]; rfl
  · simp only [find_best_portfolio]
    rw [enumSubsets_nonpos _ (le_trans (min_le_right _ _) hm)]
    rfl

/-- C7 amended witness: `max_portfolio_size = 0` with a non-empty catalog
returns the sentinel. -/
theorem c7_sentinel_witness :
    find_best_portfolio [c6card] [("dining", 1)] [] (some 16) (some 0) true true
      = .ok searchInit :=
  c7_sentinel_on_degenerate_config [c6card] [("dining", 1)] [] (some 16) (some 0) true true
    (Or.inr ⟨0, rfl, le_refl 0⟩)

/-- C6 (code bug): with `include_rebates = false` the search hands the
evaluator an empty usage state, and absent usage entries default to `True`,
so the $100 flat rebate is counted in full (the user's off-toggle is even
overridden) instead of being zeroed out. -/
theorem c6_flat_rebates_counted_despite_disabled :
    find_best_portfolio [c6card] [("dining", 0)] [("F", [(0, false)])]
        (some 16) (some 4) false true
      = .ok ⟨some [c6card], 100, [("dining", (none, 0))],
             [("F", [⟨0, "Annual Credit", false, 100, 100, true⟩])], 0, 0⟩ := by
  with_unfolding_all rfl

/-- C9 counterexample: adding the unrecognized spending key `foo` changes
the evaluation result (net 2 instead of net 0): unrecognized keys are
processed through the `other`/`all` alias fallback, not ignored. -/
theorem c9_unrecognized_key_not_ignored :
    Except.map EvalResult.total_net (evaluate_portfolio [c9card] [("foo", 100)] []) = .ok 2
    ∧ Except.map EvalResult.total_net (evaluate_portfolio [c9card] [] []) = .ok 0 := by
  constructor <;> with_unfolding_all rfl

/-- C3: `apply_rebates` processes the gathered category rebates in the
stable amount-descending order (a permutation, pairwise descending, and
every amount class kept in encounter order), each step sets
`used = min(remaining, amount)`, adds it to the total and decrements the
category's remaining spend; in the two-$300-dining-rebates scenario with
$250 dining spend the total used is $250, all of it on the
first-encountered rebate, and the second ledger entry has `used = 0`,
`applied = false`. -/
theorem c3_rebate_sort_and_greedy_allocation :
    (∀ cards : List Card,
      (sortedCategoryRebates cards).Perm (gatherCategoryRebates cards)
      ∧ (sortedCategoryRebates cards).Pairwise (fun a b => b.amount ≤ a.amount)
      ∧ ∀ q : ℚ, (sortedCategoryRebates cards).filter (fun it => decide (it.amount = q))
          = (gatherCategoryRebates cards).filter (fun it => decide (it.amount = q)))
    ∧ (∀ (st : RebState) (it : CatItem) (r : ℚ), dlookup st.remaining it.cat = some r →
        applyCatItem st it = .ok
          ⟨dset st.remaining it.cat (r - min r it.amount), st.total + min r it.amount,
           dappend st.details it.card.name
             ⟨it.idx, (it.rebate.description).getD "Category Rebate", true, min r it.amount,
              it.amount, decide (min r it.amount > 0)⟩⟩)
    ∧ apply_rebates [c3cardA, c3cardB] [("dining", 250)] [] = .ok (250, c3ledger) := by
  refine ⟨fun cards => ⟨sortDescBy_perm _ _, sortDescBy_pairwise _ _,
      fun q => filter_sortDescBy CatItem.amount (gatherCategoryRebates cards) q⟩, ?_, ?_⟩
  · intro st it r h
    simp [applyCatItem, dgetD, h]
  · with_unfolding_all rfl

/-- C3 witness: the greedy step applied to a concrete state with $250
remaining dining spend and a $300 dining rebate. -/
theorem c3_rebate_sort_witness :
    applyCatItem ⟨[("dining", 250)], 0, []⟩ ⟨"dining", 300, c3cardA, 0, ⟨"category", "dining", 300, some "Dining Credit A"⟩⟩
      = .ok ⟨dset [("dining", 250)] "dining" (250 - min 250 300), 0 + min 250 300,
             dappend [] "A" ⟨0, "Dining Credit A", true, min 250 300, 300, decide (min 250 300 > 0)⟩⟩ :=
  c3_rebate_sort_and_greedy_allocation.2.1 ⟨[("dining", 250)], 0, []⟩
    ⟨"dining", 300, c3cardA, 0, ⟨"category", "dining", 300, some "Dining Credit A"⟩⟩ 250 rfl

/-! Lemmas about the per-category best-card scan. -/

theorem bestFold_fst (cat : String) (s : ℚ) :
    ∀ (cards : List Card) (acc : ℚ × Option String),
      (bestFold cat s acc cards).1
        = cards.foldl (fun b c => max b (cardCatValue c cat s)) acc.1 := by
  intro cards
  induction cards with
  | nil => intro acc; rfl
  | cons d ds ih =>
    intro acc
    rw [bestFold, List.foldl_cons, List.foldl_cons]
    by_cases h : cardCatValue d cat s > acc.1
    · simp only [if_pos h]
      rw [← bestFold, ih]
      congr 1
      exact (max_eq_right (le_of_lt h)).symm
    · simp only [if_neg h]
      rw [← bestFold, ih]
      congr 1
      exact (max_eq_left (not_lt.mp h)).symm

theorem foldl_max_ge {α : Type} (f : α → ℚ) :
    ∀ (l : List α) (b : ℚ), b ≤ l.foldl (fun b c => max b (f c)) b := by
  intro l
  induction l with
  | nil => intro b; exact le_refl b
  | cons x xs ih =>
    intro b
    rw [List.foldl_cons]
    exact le_trans (le_max_left b (f x)) (ih (max b (f x)))

theorem foldl_max_dominates {α : Type} (f : α → ℚ) :
    ∀ (l : List α) (b : ℚ), ∀ c ∈ l, f c ≤ l.foldl (fun b c => max b (f c)) b := by
  intro l
  induction l with
  | nil => intro b c hc; cases hc
  | cons x xs ih =>
    intro b c hc
    rw [List.foldl_cons]
    rcases List.mem_cons.mp hc with hc | hc
    · subst hc
      exact le_trans (le_max_right b (f c)) (foldl_max_ge f xs _)
    · exact ih _ c hc

theorem foldl_max_attained {α : Type} (f : α → ℚ) :
    ∀ (l : List α) (b : ℚ), l.foldl (fun b c => max b (f c)) b = b
      ∨ ∃ c ∈ l, l.foldl (fun b c => max b (f c)) b = f c := by
  intro l
  induction l with
  | nil => intro b; exact Or.inl rfl
  | cons x xs ih =>
    intro b
    rw [List.foldl_cons]
    rcases ih (max b (f x)) with h | ⟨c, hc, h⟩
    · rcases max_choice b (f x) with hm | hm
      · exact Or.inl (by rw [h, hm])
      · exact Or.inr ⟨x, List.mem_cons_self _ _, by rw [h, hm]⟩
    · exact Or.inr ⟨c, List.mem_cons_of_mem _ hc, h⟩

theorem foldl_max_mono {α : Type} (f g : α → ℚ) :
    ∀ (l : List α) (b1 b2 : ℚ), (∀ c ∈ l, f c ≤ g c) → b1 ≤ b2 →
      l.foldl (fun b c => max b (f c)) b1 ≤ l.foldl (fun b c => max b (g c)) b2 := by
  intro l
  induction l with
  | nil => intro b1 b2 _ hb; exact hb
  | cons x xs ih =>
    intro b1 b2 hfg hb
    rw [List.foldl_cons, List.foldl_cons]
    exact ih _ _ (fun c hc => hfg c (List.mem_cons_of_mem _ hc))
      (max_le_max hb (hfg x (List.mem_cons_self _ _)))

theorem cardCatValue_nonneg {cards : List Card} {c : Card} (hc : c ∈ cards)
    (hr : ∀ c ∈ cards, ∀ p ∈ c.rewards, 0 ≤ p.2)
    (hpv : ∀ c ∈ cards, 0 < (c.point_value).getD (1 / 100))
    {cat : String} {s : ℚ} (hs : 0 ≤ s) : 0 ≤ cardCatValue c cat s :=
  mul_nonneg (mul_nonneg (get_reward_rate_nonneg (hr c hc) cat) hs) (le_of_lt (hpv c hc))

theorem raa_fst (cards : List Card) :
    ∀ (sp : Dict String ℚ) (acc : ℚ × Dict String (Option String × ℚ)),
      (List.foldl (fun acc p =>
        let b := bestForCategory cards p.1 p.2
        (acc.1 + b.1, dset acc.2 p.1 (b.2, b.1))) acc sp).1
        = acc.1 + (sp.map (fun p => (bestForCategory cards p.1 p.2).1)).sum := by
  intro sp
  induction sp with
  | nil => intro acc; simp
  | cons p ps ih =>
    intro acc
    rw [List.foldl_cons, ih]
    simp [add_assoc]

theorem rewardsAndAssignment_fst (cards : List Card) (sp : Dict String ℚ) :
    (rewardsAndAssignment cards sp).1
      = (sp.map (fun p => (bestForCategory cards p.1 p.2).1)).sum := by
  rw [rewardsAndAssignment, raa_fst]
  simp

/-- C2: on valid data (non-empty portfolio, non-negative spends and reward
multipliers, positive point values), the evaluator's net value is
`total_rewards + total_rebates - total_fees`, fees are each card's
`annual_fee` summed exactly once per card, and `total_rewards` sums, over
the profile's categories, the per-category value, which is the maximum over
the portfolio's cards of `rate * spend * point_value` (attained by some
card and dominating every card). -/
theorem c2_net_value_decomposition (cards : List Card) (sp : Dict String ℚ)
    (usage : Usage) (res : EvalResult)
    (hne : cards ≠ [])
    (hs : ∀ p ∈ sp, 0 ≤ p.2)
    (hr : ∀ c ∈ cards, ∀ p ∈ c.rewards, 0 ≤ p.2)
    (hpv : ∀ c ∈ cards, 0 < (c.point_value).getD (1 / 100))
    (h : evaluate_portfolio cards sp usage = .ok res) :
    (∃ reb det, apply_rebates cards sp usage = .ok (reb, det)
      ∧ res.total_net = res.total_rewards + reb - res.fees)
    ∧ res.fees = (cards.map (fun c => (c.annual_fee).getD 0)).sum
    ∧ res.total_rewards = (sp.map (fun p => (bestForCategory cards p.1 p.2).1)).sum
    ∧ ∀ p ∈ sp, (∃ c ∈ cards, (bestForCategory cards p.1 p.2).1 = cardCatValue c p.1 p.2)
        ∧ ∀ c ∈ cards, cardCatValue c p.1 p.2 ≤ (bestForCategory cards p.1 p.2).1 := by
  rw [evaluate_portfolio] at h
  cases hrb : apply_rebates cards sp usage with
  | error e => rw [hrb] at h; cases h
  | ok rb =>
    obtain ⟨r1, r2⟩ := rb
    rw [hrb] at h
    injection h with h
    subst h
    refine ⟨⟨r1, r2, rfl, rfl⟩, rfl, rewardsAndAssignment_fst cards sp, ?_⟩
    intro p hp
    have hfst : (bestForCategory cards p.1 p.2).1
        = cards.foldl (fun b c => max b (cardCatValue c p.1 p.2)) 0 := by
      rw [bestForCategory, bestFold_fst]
    constructor
    · rcases foldl_max_attained (fun c => cardCatValue c p.1 p.2) cards 0 with ha | ⟨c, hc, ha⟩
      · cases cards with
        | nil => exact absurd rfl hne
        | cons c0 cs =>
          refine ⟨c0, List.mem_cons_self _ _, le_antisymm ?_ ?_⟩
          · rw [hfst, ha]
            exact cardCatValue_nonneg (List.mem_cons_self _ _) hr hpv (hs p hp)
          · rw [hfst]
            exact foldl_max_dominates _ _ _ _ (List.mem_cons_self _ _)
      · exact ⟨c, hc, by rw [hfst, ha]⟩
    · intro c hc
      rw [hfst]
      exact foldl_max_dominates _ _ _ _ hc

/-- C2 witness: the 3x-dining, $95-fee, 1¢-point card on a $4800 dining
profile: net 49 = 144 + 0 - 95, with the per-category maximum attained. -/
theorem c2_decomposition_witness :
    (∃ reb det, apply_rebates [c2card] [("dining", 4800)] [] = .ok (reb, det)
      ∧ (49 : ℚ) = 144 + reb - 95)
    ∧ (95 : ℚ) = ([c2card].map (fun c => (c.annual_fee).getD 0)).sum
    ∧ (144 : ℚ) = (([("dining", 4800)] : Dict String ℚ).map
        (fun p => (bestForCategory [c2card] p.1 p.2).1)).sum
    ∧ ∀ p ∈ ([("dining", 4800)] : Dict String ℚ),
        (∃ c ∈ [c2card], (bestForCategory [c2card] p.1 p.2).1 = cardCatValue c p.1 p.2)
        ∧ ∀ c ∈ [c2card], cardCatValue c p.1 p.2 ≤ (bestForCategory [c2card] p.1 p.2).1 :=
  c2_net_value_decomposition [c2card] [("dining", 4800)] []
    ⟨49, [("dining", (some "A", 144))], [("A", [])], 144, 95⟩
    (by simp)
    (by intro p hp; rw [List.mem_singleton] at hp; subst hp; norm_num)
    (by intro c hc p hp; rw [List.mem_singleton] at hc; subst hc;
        simp only [c2card] at hp; rw [List.mem_singleton] at hp; subst hp; norm_num)
    (by intro c hc; rw [List.mem_singleton] at hc; subst hc; simp [c2card])
    (by with_unfolding_all rfl)

/-- C10: fixing the catalog, with non-negative reward multipliers and
positive point values, the best-card value for a canonical category is
monotonically non-decreasing in the category's spend. -/
theorem c10_best_value_monotone_in_spend (cards : List Card) (cat : String) (s1 s2 : ℚ)
    (hc : cat ∈ categories)
    (hr : ∀ c ∈ cards, ∀ p ∈ c.rewards, 0 ≤ p.2)
    (hpv : ∀ c ∈ cards, 0 < (c.point_value).getD (1 / 100))
    (h0 : 0 ≤ s1) (h12 : s1 ≤ s2) :
    (bestForCategory cards cat s1).1 ≤ (bestForCategory cards cat s2).1 := by
  rw [bestForCategory, bestForCategory, bestFold_fst, bestFold_fst]
  apply foldl_max_mono
  · intro c hcm
    rw [cardCatValue, cardCatValue]
    exact mul_le_mul_of_nonneg_right
      (mul_le_mul_of_nonneg_left h12 (get_reward_rate_nonneg (hr c hcm) cat))
      (le_of_lt (hpv c hcm))
  · exact le_refl 0

/-! The category-phase runner: step characterization and the lemmas for
extending a spending profile with a fresh key. -/

theorem applyCatItem_some (st : RebState) (it : CatItem) {r : ℚ}
    (h : dlookup st.remaining it.cat = some r) :
    applyCatItem st it = .ok
      ⟨dset st.remaining it.cat (r - min r it.amount), st.total + min r it.amount,
       dappend st.details it.card.name
         ⟨it.idx, (it.rebate.description).getD "Category Rebate", true, min r it.amount,
          it.amount, decide (min r it.amount > 0)⟩⟩ := by
  simp [applyCatItem, dgetD, h]

theorem applyCatItem_none (st : RebState) (it : CatItem)
    (h : dlookup st.remaining it.cat = none) :
    applyCatItem st it = .error ("KeyError: " ++ it.cat) := by
  simp [applyCatItem, h]

theorem runCat_keys :
    ∀ (l : List CatItem) (st fin : RebState), runCatItems l st = .ok fin →
      (∀ it ∈ l, it.cat ∈ st.remaining.map Prod.fst)
      ∧ fin.remaining.map Prod.fst = st.remaining.map Prod.fst := by
  intro l
  induction l with
  | nil =>
    intro st fin h
    injection h with h
    subst h
    exact ⟨by simp, rfl⟩
  | cons a as ih =>
    intro st fin h
    rw [runCatItems] at h
    cases hl : dlookup st.remaining a.cat with
    | none => rw [applyCatItem_none st a hl] at h; cases h
    | some r =>
      rw [applyCatItem_some st a hl] at h
      have hmem : a.cat ∈ st.remaining.map Prod.fst := dlookup_isSome_mem hl
      obtain ⟨ih1, ih2⟩ := ih _ fin h
      have hkeys : (dset st.remaining a.cat (r - min r a.amount)).map Prod.fst
          = st.remaining.map Prod.fst := dset_keys _ hmem
      refine ⟨?_, ?_⟩
      · intro it hit
        rcases List.mem_cons.mp hit with rfl | hit
        · exact hmem
        · have := ih1 it hit
          rw [hkeys] at this
          exact this
      · rw [ih2]
        exact hkeys

theorem runCat_parallel (k : String) (v : ℚ) :
    ∀ (l : List CatItem) (st fin : RebState), (∀ it ∈ l, it.cat ≠ k) →
      runCatItems l st = .ok fin →
      runCatItems l ⟨st.remaining ++ [(k, v)], st.total, st.details⟩
        = .ok ⟨fin.remaining ++ [(k, v)], fin.total, fin.details⟩ := by
  intro l
  induction l with
  | nil =>
    intro st fin _ h
    injection h with h
    subst h
    rfl
  | cons a as ih =>
    intro st fin hne h
    rw [runCatItems] at h
    cases hl : dlookup st.remaining a.cat with
    | none => rw [applyCatItem_none st a hl] at h; cases h
    | some r =>
      rw [applyCatItem_some st a hl] at h
      have hkne : a.cat ≠ k := hne a (List.mem_cons_self _ _)
      have hl' : dlookup (st.remaining ++ [(k, v)]) a.cat = some r := by
        rw [dlookup_append_ne _ _ _ hkne]
        exact hl
      rw [runCatItems, applyCatItem_some ⟨st.remaining ++ [(k, v)], st.total, st.details⟩ a hl']
      have hdset : dset (st.remaining ++ [(k, v)]) a.cat (r - min r a.amount)
          = dset st.remaining a.cat (r - min r a.amount) ++ [(k, v)] :=
        dset_append_ne _ _ _ (dlookup_isSome_mem hl)
      simp only [hdset]
      exact ih _ fin (fun it hit => hne it (List.mem_cons_of_mem _ hit)) h

theorem evaluate_portfolio_ok {cards : List Card} {sp : Dict String ℚ} {usage : Usage}
    {r1 : ℚ} {r2 : Ledger} (h : apply_rebates cards sp usage = .ok (r1, r2)) :
    evaluate_portfolio cards sp usage = .ok
      ⟨(rewardsAndAssignment cards sp).1 + r1
         - (cards.map (fun c => (c.annual_fee).getD 0)).sum,
       (rewardsAndAssignment cards sp).2, r2, (rewardsAndAssignment cards sp).1,
       (cards.map (fun c => (c.annual_fee).getD 0)).sum⟩ := by
  simp [evaluate_portfolio, h]

theorem raa_keys (cards : List Card) :
    ∀ (sp : Dict String ℚ) (acc : ℚ × Dict String (Option String × ℚ)) (k : String),
      k ∉ acc.2.map Prod.fst → k ∉ sp.map Prod.fst →
      k ∉ ((List.foldl (fun acc p =>
        let b := bestForCategory cards p.1 p.2
        (acc.1 + b.1, dset acc.2 p.1 (b.2, b.1))) acc sp).2.map Prod.fst) := by
  intro sp
  induction sp with
  | nil => intro acc k h _; exact h
  | cons p ps ih =>
    intro acc k hacc hsp
    rw [List.map_cons, List.mem_cons] at hsp
    push_neg at hsp
    rw [List.foldl_cons]
    apply ih
    · show k ∉ (dset acc.2 p.1
        ((bestForCategory cards p.1 p.2).2, (bestForCategory cards p.1 p.2).1)).map Prod.fst
      by_cases hc : p.1 ∈ acc.2.map Prod.fst
      · rw [dset_keys _ hc]
        exact hacc
      · rw [dset_not_contains _ hc, List.map_append, List.mem_append]
        push_neg
        exact ⟨hacc, by simp [hsp.1]⟩
    · exact hsp.2

theorem rewardsAndAssignment_append (cards : List Card) (sp : Dict String ℚ)
    (k : String) (v : ℚ) (hk : k ∉ sp.map Prod.fst) :
    rewardsAndAssignment cards (sp ++ [(k, v)])
      = ((rewardsAndAssignment cards sp).1 + (bestForCategory cards k v).1,
         (rewardsAndAssignment cards sp).2
           ++ [(k, ((bestForCategory cards k v).2, (bestForCategory cards k v).1))]) := by
  have hkeys : k ∉ ((rewardsAndAssignment cards sp).2.map Prod.fst) :=
    raa_keys cards sp (0, []) k (by simp) hk
  rw [rewardsAndAssignment, List.foldl_append]
  simp only [List.foldl_cons, List.foldl_nil]
  rw [← rewardsAndAssignment, dset_not_contains _ hkeys]

theorem raa_append_fst (cards : List Card) (sp : Dict String ℚ)
    (k : String) (v : ℚ) (hk : k ∉ sp.map Prod.fst) :
    (rewardsAndAssignment cards (sp ++ [(k, v)])).1
      = (rewardsAndAssignment cards sp).1 + (bestForCategory cards k v).1 := by
  rw [rewardsAndAssignment_append cards sp k v hk]

theorem raa_append_snd (cards : List Card) (sp : Dict String ℚ)
    (k : String) (v : ℚ) (hk : k ∉ sp.map Prod.fst) :
    (rewardsAndAssignment cards (sp ++ [(k, v)])).2
      = (rewardsAndAssignment cards sp).2
          ++ [(k, ((bestForCategory cards k v).2, (bestForCategory cards k v).1))] := by
  rw [rewardsAndAssignment_append cards sp k v hk]

/-- C9 amended: evaluating a spending profile extended with a fresh key is
NOT the same as without it: the extra key is processed like a category
(resolved through `get_reward_rate`'s `other`/`all` fallback), so the
result gains the extra key's best-card value in `total_rewards` and
`total_net` and an assignment entry for that key, while the rebate ledger
and fees are unchanged. -/
theorem c9_extended_profile_appends_entry (cards : List Card) (sp : Dict String ℚ)
    (usage : Usage) (k : String) (v : ℚ) (res : EvalResult)
    (hk : k ∉ sp.map Prod.fst)
    (h : evaluate_portfolio cards sp usage = .ok res) :
    evaluate_portfolio cards (sp ++ [(k, v)]) usage = .ok
      ⟨res.total_net + (bestForCategory cards k v).1,
       res.assignment ++ [(k, ((bestForCategory cards k v).2, (bestForCategory cards k v).1))],
       res.per_card_details, res.total_rewards + (bestForCategory cards k v).1, res.fees⟩ := by
  cases hrb : apply_rebates cards sp usage with
  | error e => rw [evaluate_portfolio, hrb] at h; cases h
  | ok rb =>
    obtain ⟨r1, r2⟩ := rb
    have hres := (evaluate_portfolio_ok hrb).symm.trans h
    injection hres with hres
    have hrb' : apply_rebates cards (sp ++ [(k, v)]) usage = .ok (r1, r2) := by
      rw [apply_rebates] at hrb ⊢
      cases hrun : runCatItems (sortedCategoryRebates cards) ⟨sp, 0, []⟩ with
      | error e => rw [hrun] at hrb; cases hrb
      | ok st =>
        rw [hrun] at hrb
        have hne : ∀ it ∈ sortedCategoryRebates cards, it.cat ≠ k := by
          intro it hit hek
          have := (runCat_keys _ _ _ hrun).1 it hit
          rw [hek] at this
          exact hk this
        have hpar := runCat_parallel k v _ ⟨sp, 0, []⟩ st hne hrun
        rw [hpar]
        exact hrb
    rw [evaluate_portfolio_ok hrb', raa_append_fst cards sp k v hk,
      raa_append_snd cards sp k v hk]
    subst hres
    simp only [Except.ok.injEq, EvalResult.mk.injEq, and_true, true_and]
    ring

/-! The non-double-counting development: every ledger write is tracked
against the category it consumes, and the remaining spend never goes
negative. -/

theorem usedSum_dappend (cards : List Card) (cat : String) :
    ∀ (d : Ledger) (n : String) (e : LedgerEntry),
      usedSumForCategory (dappend d n e) cards cat
        = usedSumForCategory d cards cat + entryUsedFor cards cat n e := by
  intro d
  induction d with
  | nil => intro n e; simp [dappend, usedSumForCategory]
  | cons p ps ih =>
    intro n e
    obtain ⟨a, es⟩ := p
    by_cases hn : a = n
    · subst hn
      simp [dappend, usedSumForCategory]
      ring
    · simp only [dappend, if_neg hn, usedSumForCategory, List.map_cons, List.sum_cons]
      have := ih n e
      simp only [usedSumForCategory] at this
      rw [this]
      ring

theorem usedSum_dsetdefault (cards : List Card) (cat : String) :
    ∀ (d : Ledger) (n : String),
      usedSumForCategory (dsetdefault d n []) cards cat
        = usedSumForCategory d cards cat := by
  intro d
  induction d with
  | nil => intro n; simp [dsetdefault, usedSumForCategory]
  | cons p ps ih =>
    intro n
    obtain ⟨a, es⟩ := p
    by_cases hn : a = n
    · simp [dsetdefault, hn, usedSumForCategory]
    · simp only [dsetdefault, if_neg hn, usedSumForCategory, List.map_cons, List.sum_cons]
      have := ih n
      simp only [usedSumForCategory] at this
      rw [this]

theorem usedSum_flatStep_fold (cards : List Card) (cat : String) (usage : Usage)
    (card : Card) :
    ∀ (l : List (Nat × Rebate)) (acc : ℚ × Ledger),
      usedSumForCategory (l.foldl (flatStep usage card) acc).2 cards cat
        = usedSumForCategory acc.2 cards cat := by
  intro l
  induction l with
  | nil => intro acc; rfl
  | cons p ps ih =>
    intro acc
    rw [List.foldl_cons, ih, flatStep]
    by_cases hf : p.2.type = "flat"
    · rw [if_pos hf]
      show usedSumForCategory (dappend acc.2 card.name _) cards cat = _
      rw [usedSum_dappend]
      simp [entryUsedFor]
    · rw [if_neg hf]

theorem usedSum_flat_cards (cards : List Card) (cat : String) (usage : Usage) :
    ∀ (cs : List Card) (acc : ℚ × Ledger),
      usedSumForCategory (cs.foldl (applyFlatForCard usage) acc).2 cards cat
        = usedSumForCategory acc.2 cards cat := by
  intro cs
  induction cs with
  | nil => intro acc; rfl
  | cons c cs ih =>
    intro acc
    rw [List.foldl_cons, ih, applyFlatForCard, usedSum_flatStep_fold]
    show usedSumForCategory (dsetdefault acc.2 c.name []) cards cat = _
    rw [usedSum_dsetdefault]

theorem find?_name_of_nodup :
    ∀ {cards : List Card}, (cards.map Card.name).Nodup →
      ∀ {c : Card}, c ∈ cards → cards.find? (fun x => x.name == c.name) = some c := by
  intro cards
  induction cards with
  | nil => intro _ c hc; cases hc
  | cons d ds ih =>
    intro hn c hc
    have hn' : d.name ∉ ds.map Card.name ∧ (ds.map Card.name).Nodup := by
      rw [List.map_cons, List.nodup_cons] at hn
      exact hn
    rcases List.mem_cons.mp hc with rfl | hc
    · rw [List.find?_cons_of_pos _ (by simp)]
    · have hne : d.name ≠ c.name := by
        intro he
        apply hn'.1
        rw [he]
        exact List.mem_map.mpr ⟨c, hc, rfl⟩
      rw [List.find?_cons_of_neg _ (by simp [hne])]
      exact ih hn'.2 hc

theorem pyEnumFrom_get :
    ∀ (l : List Rebate) (j i : Nat) (rb : Rebate),
      (i, rb) ∈ pyEnumFrom j l → ∃ t, i = j + t ∧ l.get? t = some rb := by
  intro l
  induction l with
  | nil => intro j i rb h; cases h
  | cons x xs ih =>
    intro j i rb h
    rw [pyEnumFrom] at h
    rcases List.mem_cons.mp h with h | h
    · injection h with h1 h2
      exact ⟨0, by omega, by rw [h2]; rfl⟩
    · rcases ih (j + 1) i rb h with ⟨t, ht, hg⟩
      exact ⟨t + 1, by omega, by simpa using hg⟩

theorem gather_goodItem {cards : List Card} (hN : (cards.map Card.name).Nodup)
    (ha : ∀ c ∈ cards, ∀ rb ∈ c.rebates, rb.type = "category" → 0 ≤ rb.amount) :
    ∀ it ∈ gatherCategoryRebates cards, goodItem cards it := by
  intro it hit
  rw [gatherCategoryRebates] at hit
  rcases List.mem_flatMap.mp hit with ⟨c, hc, hin⟩
  rcases List.mem_filterMap.mp hin with ⟨p, hp, hpe⟩
  obtain ⟨i, rb⟩ := p
  by_cases htype : rb.type = "category"
  · rw [if_pos htype] at hpe
    injection hpe with hpe
    subst hpe
    rcases pyEnumFrom_get c.rebates 0 i rb hp with ⟨t, ht, hg⟩
    have hti : t = i := by omega
    subst hti
    constructor
    · exact ha c hc rb (List.get?_mem hg) htype
    · show rebateCategoryOf cards c.name t = some rb.category
      rw [rebateCategoryOf, find?_name_of_nodup hN hc]
      show (c.rebates.get? t).map Rebate.category = some rb.category
      rw [hg]
      rfl
  · rw [if_neg htype] at hpe
    cases hpe

theorem c1_run (cards : List Card) (sp0 : Dict String ℚ) :
    ∀ (l : List CatItem) (st fin : RebState),
      (∀ it ∈ l, goodItem cards it) → c1Inv cards sp0 st →
      runCatItems l st = .ok fin → c1Inv cards sp0 fin := by
  intro l
  induction l with
  | nil =>
    intro st fin _ hinv h
    injection h with h
    subst h
    exact hinv
  | cons a as ih =>
    intro st fin hgood hinv h
    rw [runCatItems] at h
    cases hl : dlookup st.remaining a.cat with
    | none => rw [applyCatItem_none st a hl] at h; cases h
    | some r =>
      rw [applyCatItem_some st a hl] at h
      refine ih _ fin (fun it hit => hgood it (List.mem_cons_of_mem _ hit)) ?_ h
      obtain ⟨hkeys, hinv2⟩ := hinv
      have hmem : a.cat ∈ st.remaining.map Prod.fst := dlookup_isSome_mem hl
      have hga := hgood a (List.mem_cons_self _ _)
      refine ⟨by rw [dset_keys _ hmem]; exact hkeys, ?_⟩
      intro p hp
      rcases hinv2 p hp with ⟨r', hr', hr'0, hsum⟩
      by_cases hcat : p.1 = a.cat
      · have hrr : r' = r := by
          rw [hcat] at hr'
          rw [hr'] at hl
          injection hl
        subst hrr
        refine ⟨r' - min r' a.amount, ?_, ?_, ?_⟩
        · show dlookup (dset st.remaining a.cat (r' - min r' a.amount)) p.1 = _
          rw [hcat, dlookup_dset_self]
        · have := min_le_left r' a.amount
          linarith
        · show usedSumForCategory (dappend st.details a.card.name _) cards p.1
              + (r' - min r' a.amount) = p.2
          rw [usedSum_dappend, entryUsedFor,
            if_pos ⟨rfl, by rw [hcat]; exact hga.2⟩]
          linarith
      · refine ⟨r', ?_, hr'0, ?_⟩
        · show dlookup (dset st.remaining a.cat (r - min r a.amount)) p.1 = some r'
          rw [dlookup_dset_ne _ _ _ hcat]
          exact hr'
        · show usedSumForCategory (dappend st.details a.card.name _) cards p.1
              + r' = p.2
          rw [usedSum_dappend, entryUsedFor, if_neg ?_]
          · rw [add_zero]
            exact hsum
          · rintro ⟨-, hco⟩
            rw [hga.2] at hco
            injection hco with hco
            exact hcat hco.symm

/-- C1: for a duplicate-free portfolio and a valid spending profile
(duplicate-free keys, non-negative spends), when all category-rebate
amounts are non-negative and `apply_rebates` returns, the sum of the `used`
fields over the category-rebate ledger entries of any profile category
never exceeds that category's spend. -/
theorem c1_used_bounded_by_spend (cards : List Card) (sp : Dict String ℚ) (usage : Usage)
    (tot : ℚ) (det : Ledger)
    (hN : (cards.map Card.name).Nodup)
    (hk : (sp.map Prod.fst).Nodup)
    (hs : ∀ p ∈ sp, 0 ≤ p.2)
    (ha : ∀ c ∈ cards, ∀ rb ∈ c.rebates, rb.type = "category" → 0 ≤ rb.amount)
    (h : apply_rebates cards sp usage = .ok (tot, det)) :
    ∀ p ∈ sp, usedSumForCategory det cards p.1 ≤ p.2 := by
  rw [apply_rebates] at h
  cases hrun : runCatItems (sortedCategoryRebates cards) ⟨sp, 0, []⟩ with
  | error e => rw [hrun] at h; cases h
  | ok st =>
    rw [hrun] at h
    injection h with h
    have hgood : ∀ it ∈ sortedCategoryRebates cards, goodItem cards it := fun it hit =>
      gather_goodItem hN ha it ((sortDescBy_perm _ _).mem_iff.mp hit)
    have hinv0 : c1Inv cards sp ⟨sp, 0, []⟩ := by
      refine ⟨rfl, ?_⟩
      intro p hp
      refine ⟨p.2, dlookup_of_mem_nodup hk ?_, hs p hp, by simp [usedSumForCategory]⟩
      show (p.1, p.2) ∈ sp
      rw [Prod.mk.eta]
      exact hp
    have hinv := c1_run cards sp _ ⟨sp, 0, []⟩ st hgood hinv0 hrun
    intro p hp
    rcases hinv.2 p hp with ⟨r, _, hr0, hsum⟩
    have hd : det = (cards.foldl (applyFlatForCard usage) (st.total, st.details)).2 := by
      rw [h]
    rw [hd, usedSum_flat_cards]
    show usedSumForCategory st.details cards p.1 ≤ p.2
    linarith

/-- C1 witness: in the two-$300-dining-rebates scenario with $250 dining
spend, the dining ledger total (250) is at most the dining spend (250). -/
theorem c1_bounded_witness :
    usedSumForCategory c3ledger [c3cardA, c3cardB] "dining" ≤ 250 :=
  c1_used_bounded_by_spend [c3cardA, c3cardB] [("dining", 250)] [] 250 c3ledger
    (by decide) (by decide) (by intro p hp; rw [List.mem_singleton] at hp; subst hp; norm_num)
    (by with_unfolding_all decide) (by with_unfolding_all rfl)
    ("dining", 250) (List.mem_singleton.mpr rfl)

/-- C9 amended witness: adding `foo: 100` to a one-category profile on a
concrete card appends the `foo` assignment entry and adds its best-card
value. -/
theorem c9_extended_profile_witness :
    evaluate_portfolio [c9card] ([("dining", 0)] ++ [("foo", 100)]) []
      = .ok ⟨(0 : ℚ) + (bestForCategory [c9card] "foo" 100).1,
             [("dining", (none, 0))]
               ++ [("foo", ((bestForCategory [c9card] "foo" 100).2,
                            (bestForCategory [c9card] "foo" 100).1))],
             [("A", [])], 0 + (bestForCategory [c9card] "foo" 100).1, 0⟩ :=
  c9_extended_profile_appends_entry [c9card] [("dining", 0)] [] "foo" 100
    ⟨0, [("dining", (none, 0))], [("A", [])], 0, 0⟩
    (by simp) (by with_unfolding_all rfl)

/-! The subset-search development: enumeration bounds and the
first-argmax invariant of the strict-improvement loop. -/

theorem mem_combinations {α : Type} :
    ∀ (l : List α) (n : Nat) (s : List α),
      s ∈ combinations n l → s.length = n ∧ s.Sublist l := by
  intro l
  induction l with
  | nil =>
    intro n s hs
    cases n with
    | zero =>
      have : combinations 0 ([] : List α) = [[]] := rfl
      rw [this] at hs
      rcases List.mem_singleton.mp hs with rfl
      exact ⟨rfl, List.Sublist.refl _⟩
    | succ n =>
      have : combinations (n + 1) ([] : List α) = [] := rfl
      rw [this] at hs
      cases hs
  | cons x xs ih =>
    intro n s hs
    cases n with
    | zero =>
      have : combinations 0 (x :: xs) = [[]] := rfl
      rw [this] at hs
      rcases List.mem_singleton.mp hs with rfl
      exact ⟨rfl, List.nil_sublist _⟩
    | succ n =>
      rw [combinations] at hs
      rcases List.mem_append.mp hs with hs | hs
      · rcases List.mem_map.mp hs with ⟨t, ht, rfl⟩
        rcases ih n t ht with ⟨hl, hsub⟩
        exact ⟨by simp [hl], hsub.cons₂ x⟩
      · rcases ih (n + 1) s hs with ⟨hl, hsub⟩
        exact ⟨hl, hsub.cons x⟩

theorem mem_enumSubsets {cards : List Card} {max_r : Int} {s : List Card}
    (h : s ∈ enumSubsets cards max_r) :
    1 ≤ s.length ∧ (s.length : Int) ≤ max_r ∧ s.Sublist cards := by
  rw [enumSubsets] at h
  rcases List.mem_flatMap.mp h with ⟨r, hr, hs⟩
  rcases mem_combinations cards r s hs with ⟨hl, hsub⟩
  rcases List.mem_range'.mp hr with ⟨i, hi, hri⟩
  refine ⟨by omega, ?_, hsub⟩
  have : r ≤ max_r.toNat := by omega
  omega

theorem search_run (sp : Dict String ℚ) (usage : Usage) :
    ∀ (l : List (List Card)) (acc : List (List Card)) (st fin : SearchResult),
      searchInv sp usage acc st → runSearch sp usage l st = .ok fin →
      searchInv sp usage (acc ++ l) fin := by
  intro l
  induction l with
  | nil =>
    intro acc st fin hinv h
    injection h with h
    subst h
    simpa using hinv
  | cons s ss ih =>
    intro acc st fin hinv h
    rw [runSearch] at h
    cases hev : evaluate_portfolio s sp usage with
    | error e =>
      have hstep : searchStep sp usage st s = .error e := by
        rw [searchStep, hev]
      rw [hstep] at h
      exact Except.noConfusion h
    | ok r =>
      have hstep : searchStep sp usage st s
          = if r.total_net > st.best_val then
              .ok ⟨some s, r.total_net, r.assignment, r.per_card_details,
                   r.total_rewards, r.fees⟩
            else .ok st := by
        rw [searchStep, hev]
      by_cases himp : r.total_net > st.best_val
      · rw [hstep, if_pos himp] at h
        have hinv' : searchInv sp usage (acc ++ [s])
            ⟨some s, r.total_net, r.assignment, r.per_card_details, r.total_rewards, r.fees⟩ := by
          constructor
          · intro hnone
            exact Option.noConfusion hnone
          · intro p hp
            injection hp with hp
            subst hp
            refine ⟨acc, [], by simp, by rw [netOf, hev]; rfl, ?_, by simp⟩
            intro q hq
            cases hst : st.best_portfolio with
            | none =>
              rcases hinv.1 hst with ⟨hval, hall⟩
              rcases hall q hq with ⟨v, hv, hvle⟩
              refine ⟨v, hv, ?_⟩
              rw [← hval] at hvle
              exact lt_of_le_of_lt hvle himp
            | some p0 =>
              rcases hinv.2 p0 hst with ⟨L1, L2, hacc, _, hL1, hL2⟩
              subst hacc
              rcases List.mem_append.mp hq with hq | hq
              · rcases hL1 q hq with ⟨v, hv, hlt⟩
                exact ⟨v, hv, lt_trans hlt himp⟩
              · rcases List.mem_cons.mp hq with rfl | hq
                · exact ⟨st.best_val, by assumption, himp⟩
                · rcases hL2 q hq with ⟨v, hv, hle⟩
                  exact ⟨v, hv, lt_of_le_of_lt hle himp⟩
        have hres := ih (acc ++ [s]) _ fin hinv' h
        simpa using hres
      · rw [hstep, if_neg himp] at h
        have hinv' : searchInv sp usage (acc ++ [s]) st := by
          constructor
          · intro hnone
            rcases hinv.1 hnone with ⟨hval, hall⟩
            refine ⟨hval, ?_⟩
            intro q hq
            rcases List.mem_append.mp hq with hq | hq
            · exact hall q hq
            · rcases List.mem_singleton.mp hq with rfl
              refine ⟨r.total_net, by rw [netOf, hev]; rfl, ?_⟩
              rw [← hval]
              exact not_lt.mp himp
          · intro p hp
            rcases hinv.2 p hp with ⟨L1, L2, hacc, hv0, hL1, hL2⟩
            refine ⟨L1, L2 ++ [s], by rw [hacc]; simp, hv0, hL1, ?_⟩
            intro q hq
            rcases List.mem_append.mp hq with hq | hq
            · exact hL2 q hq
            · rcases List.mem_singleton.mp hq with rfl
              exact ⟨r.total_net, by rw [netOf, hev]; rfl, not_lt.mp himp⟩
        have hres := ih (acc ++ [s]) st fin hinv' h
        simpa using hres

/-- C5: with `max_portfolio_size = m` set, a returned portfolio has between
1 and `m` cards, all drawn from the prefiltered candidate set, and is the
first subset in enumeration order attaining the maximum net value: every
earlier subset scores strictly less and every later subset scores at most
the returned value (the incumbent is replaced only on strict
improvement). -/
theorem c5_search_bounds_and_first_argmax (catalog : List Card) (sp : Dict String ℚ)
    (usage : Usage) (mc : Option Nat) (m : Int) (ir ofr : Bool) (r : SearchResult)
    (p : List Card)
    (h : find_best_portfolio catalog sp usage mc (some m) ir ofr = .ok r)
    (hp : r.best_portfolio = some p) :
    1 ≤ p.length ∧ (p.length : Int) ≤ m
    ∧ (∀ c ∈ p, c ∈ cardsToConsider catalog sp mc ir ofr)
    ∧ ∃ L1 L2,
        enumSubsets (cardsToConsider catalog sp mc ir ofr)
            (min ((cardsToConsider catalog sp mc ir ofr).length : Int) m) = L1 ++ p :: L2
        ∧ netOf sp (if ir then usage else []) p = .ok r.best_val
        ∧ (∀ q ∈ L1, ∃ v, netOf sp (if ir then usage else []) q = .ok v ∧ v < r.best_val)
        ∧ (∀ q ∈ L2, ∃ v, netOf sp (if ir then usage else []) q = .ok v ∧ v ≤ r.best_val) := by
  have hrun : runSearch sp (if ir then usage else [])
      (enumSubsets (cardsToConsider catalog sp mc ir ofr)
        (min ((cardsToConsider catalog sp mc ir ofr).length : Int) m)) searchInit = .ok r := h
  have hinv0 : searchInv sp (if ir then usage else []) [] searchInit := by
    constructor
    · intro _
      exact ⟨rfl, by simp⟩
    · intro p0 hp0
      exact Option.noConfusion hp0
  have hinv := search_run sp (if ir then usage else []) _ [] searchInit r hinv0 hrun
  rw [List.nil_append] at hinv
  rcases hinv.2 p hp with ⟨L1, L2, hsplit, hv, hL1, hL2⟩
  have hmem : p ∈ enumSubsets (cardsToConsider catalog sp mc ir ofr)
      (min ((cardsToConsider catalog sp mc ir ofr).length : Int) m) := by
    rw [hsplit]
    exact List.mem_append.mpr (Or.inr (List.mem_cons_self _ _))
  rcases mem_enumSubsets hmem with ⟨h1, h2, hsub⟩
  exact ⟨h1, le_trans h2 (min_le_right _ _), fun c hc => hsub.subset hc,
    L1, L2, hsplit, hv, hL1, hL2⟩

/-- C5 witness: a one-card catalog with `max_portfolio_size = 2` returns
the singleton portfolio, first and only subset in enumeration order. -/
theorem c5_search_witness :
    1 ≤ [c2card].length ∧ (([c2card].length : Nat) : Int) ≤ 2
    ∧ (∀ c ∈ [c2card], c ∈ cardsToConsider [c2card] [("dining", 4800)] (some 16) true true)
    ∧ ∃ L1 L2,
        enumSubsets (cardsToConsider [c2card] [("dining", 4800)] (some 16) true true)
            (min ((cardsToConsider [c2card] [("dining", 4800)] (some 16) true true).length : Int) 2)
          = L1 ++ [c2card] :: L2
        ∧ netOf [("dining", 4800)] (if true then [] else []) [c2card] = .ok (49 : ℚ)
        ∧ (∀ q ∈ L1, ∃ v, netOf [("dining", 4800)] (if true then [] else []) q = .ok v ∧ v < (49 : ℚ))
        ∧ (∀ q ∈ L2, ∃ v, netOf [("dining", 4800)] (if true then [] else []) q = .ok v ∧ v ≤ (49 : ℚ)) :=
  c5_search_bounds_and_first_argmax [c2card] [("dining", 4800)] [] (some 16) 2 true true
    ⟨some [c2card], 49, [("dining", (some "A", 144))], [("A", [])], 144, 95⟩ [c2card]
    (by with_unfolding_all rfl) rfl

/-- C10 witness: doubling dining spend does not decrease the best dining
value on a concrete one-card catalog. -/
theorem c10_monotone_witness :
    (bestForCategory [c2card] "dining" 100).1 ≤ (bestForCategory [c2card] "dining" 200).1 :=
  c10_best_value_monotone_in_spend [c2card] "dining" 100 200
    (by simp [categories])
    (by intro c hc p hp; rw [List.mem_singleton] at hc; subst hc;
        simp only [c2card] at hp; rw [List.mem_singleton] at hp; subst hp; norm_num)
    (by intro c hc; rw [List.mem_singleton] at hc; subst hc; simp [c2card])
    (by norm_num) (by norm_num)

end CreditValuation
